import Mathlib

/-!
Verification of `parse-locale-identifiers.c`: a converter between locale
identifiers in Gettext format (`language[_territory][.codeset][@modifier]`)
and the Unicode language-tag format.

The C code is shallowly embedded: C strings (null-terminated, hence never
containing an interior NUL) are modelled as Lean `String`s / `List Char`;
`NULL`-able `char *` values become `Option String`; functions that can fail
return `Option`.  The `ctype.h` character classes are the ASCII classes of
the C locale, expressed on code points.  Out-of-memory failure paths of the
C code are not modelled (allocation is assumed to succeed).
-/

/-- C `isalpha` in the C locale: ASCII letters. -/
def isalphac (c : Char) : Bool :=
  (65 ≤ c.toNat && c.toNat ≤ 90) || (97 ≤ c.toNat && c.toNat ≤ 122)

/-- C `isdigit`: ASCII digits. -/
def isdigitc (c : Char) : Bool :=
  48 ≤ c.toNat && c.toNat ≤ 57

/-- C `isalnum`: ASCII letters and digits. -/
def isalnumc (c : Char) : Bool :=
  isalphac c || isdigitc c

/-- C `tolower` in the C locale, as used by `strcasecmp`. -/
def toLowerAscii (c : Char) : Char :=
  if 65 ≤ c.toNat && c.toNat ≤ 90 then Char.ofNat (c.toNat + 32) else c

/-- `strcasecmp(a, b) == 0`: equality after ASCII lowercasing. -/
def strCaseEq (a b : String) : Bool :=
  a.data.map toLowerAscii == b.data.map toLowerAscii

/-- The `LocaleChunks` structure of the C code.  `variantCount` is implicit in
`variants.length`; the zero-initialisation done by `ConstructLocaleChunks`
(via `calloc`) is the record `emptyChunks` below. -/
structure LocaleChunks where
  isRoot : Bool
  language : Option String
  territory : Option String
  codeset : Option String
  modifier : Option String
  script : Option String
  variants : List String
deriving DecidableEq

/-- `ConstructLocaleChunks`: the zero-initialised record. -/
def emptyChunks : LocaleChunks :=
  { isRoot := false, language := none, territory := none, codeset := none,
    modifier := none, script := none, variants := [] }

/-- `GettextModifierToUnicodeScriptDictionary`: the ordered crosswalk table
from Gettext modifier identifiers to Unicode script identifiers, transcribed
row by row from the C array (the `{NULL, NULL}` sentinel is the end of the
list). -/
def GettextModifierToUnicodeScriptDictionary : List (String × String) := [
  ("ahom", "Ahom"),
  ("anatolian_hieroglyphs", "Hluw"),
  ("arabic", "Arab"),
  ("armenian", "Armn"),
  ("avestan", "Avst"),
  ("balinese", "Bali"),
  ("bamum", "Bamu"),
  ("bassa_vah", "Bass"),
  ("batak", "Batk"),
  ("bengali", "Beng"),
  ("bopomofo", "Bopo"),
  ("brahmi", "Brah"),
  ("braille", "Brai"),
  ("buginese", "Bugi"),
  ("buhid", "Buhd"),
  ("canadian_aboriginal", "Cans"),
  ("carian", "Cari"),
  ("caucasian_albanian", "Aghb"),
  ("chakma", "Cakm"),
  ("cham", "Cham"),
  ("cherokee", "Cher"),
  ("common", "Zyyy"),
  ("coptic", "Copt"),
  ("cuneiform", "Xsux"),
  ("cypriot", "Cprt"),
  ("cyrillic", "Cyrl"),
  ("deseret", "Dsrt"),
  ("devanagari", "Deva"),
  ("duployan", "Dupl"),
  ("egyptian_hieroglyphs", "Egyp"),
  ("elbasan", "Elba"),
  ("ethiopic", "Ethi"),
  ("georgian", "Geok"),
  ("georgian", "Geor"),
  ("glagolitic", "Glag"),
  ("gothic", "Goth"),
  ("grantha", "Gran"),
  ("greek", "Grek"),
  ("gujarati", "Gujr"),
  ("gurmukhi", "Guru"),
  ("han", "Hani"),
  ("hangul", "Hang"),
  ("hanunoo", "Hano"),
  ("hatran", "Hatr"),
  ("hebrew", "Hebr"),
  ("hiragana", "Hira"),
  ("imperial_aramaic", "Armi"),
  ("inherited", "Zinh"),
  ("inscriptional_pahlavi", "Phli"),
  ("inscriptional_parthian", "Prti"),
  ("javanese", "Java"),
  ("kaithi", "Kthi"),
  ("kannada", "Knda"),
  ("katakana", "Kana"),
  ("katakana_or_hiragana", "Hrkt"),
  ("kayah_li", "Kali"),
  ("kharoshthi", "Khar"),
  ("khmer", "Khmr"),
  ("khojki", "Khoj"),
  ("khudawadi", "Sind"),
  ("lao", "Laoo"),
  ("latin", "Latn"),
  ("lepcha", "Lepc"),
  ("limbu", "Limb"),
  ("linear_a", "Lina"),
  ("linear_b", "Linb"),
  ("lisu", "Lisu"),
  ("lycian", "Lyci"),
  ("lydian", "Lydi"),
  ("mahajani", "Mahj"),
  ("malayalam", "Mlym"),
  ("mandaic", "Mand"),
  ("manichaean", "Mani"),
  ("meetei_mayek", "Mtei"),
  ("mende_kikakui", "Mend"),
  ("meroitic_cursive", "Merc"),
  ("meroitic_hieroglyphs", "Mero"),
  ("miao", "Plrd"),
  ("modi", "Modi"),
  ("mongolian", "Mong"),
  ("mro", "Mroo"),
  ("multani", "Mult"),
  ("myanmar", "Mymr"),
  ("nabataean", "Nbat"),
  ("new_tai_lue", "Talu"),
  ("nko", "Nkoo"),
  ("ogham", "Ogam"),
  ("ol_chiki", "Olck"),
  ("old_hungarian", "Hung"),
  ("old_italic", "Ital"),
  ("old_north_arabian", "Narb"),
  ("old_permic", "Perm"),
  ("old_persian", "Xpeo"),
  ("old_south_arabian", "Sarb"),
  ("old_turkic", "Orkh"),
  ("oriya", "Orya"),
  ("osmanya", "Osma"),
  ("pahawh_hmong", "Hmng"),
  ("palmyrene", "Palm"),
  ("pau_cin_hau", "Pauc"),
  ("phags_pa", "Phag"),
  ("phoenician", "Phnx"),
  ("psalter_pahlavi", "Phlp"),
  ("rejang", "Rjng"),
  ("runic", "Runr"),
  ("samaritan", "Samr"),
  ("saurashtra", "Saur"),
  ("sharada", "Shrd"),
  ("shavian", "Shaw"),
  ("siddham", "Sidd"),
  ("signwriting", "Sgnw"),
  ("sinhala", "Sinh"),
  ("sora_sompeng", "Sora"),
  ("sundanese", "Sund"),
  ("syloti_nagri", "Sylo"),
  ("syriac", "Syrc"),
  ("tagalog", "Tglg"),
  ("tagbanwa", "Tagb"),
  ("tai_le", "Tale"),
  ("tai_tham", "Lana"),
  ("tai_viet", "Tavt"),
  ("takri", "Takr"),
  ("tamil", "Taml"),
  ("telugu", "Telu"),
  ("thaana", "Thaa"),
  ("thai", "Thai"),
  ("tibetan", "Tibt"),
  ("tifinagh", "Tfng"),
  ("tirhuta", "Tirh"),
  ("ugaritic", "Ugar"),
  ("unknown", "Zzzz"),
  ("vai", "Vaii"),
  ("warang_citi", "Wara"),
  ("yi", "Yiii")]

/-- `GettextModifierToUnicodeScript`: first row (in table order) whose
modifier name matches case-insensitively; `NULL` (= `none`) for a `NULL` or
empty input or when no row matches. -/
def GettextModifierToUnicodeScript (gettextModifier : Option String) : Option String :=
  match gettextModifier with
  | none => none
  | some m =>
    if m.data = [] then none
    else (GettextModifierToUnicodeScriptDictionary.find? (fun row => strCaseEq row.1 m)).map (·.2)

/-- `UnicodeScriptToGettextModifier`: first row (in table order) whose script
code matches case-insensitively; `none` for absent/empty input or no match. -/
def UnicodeScriptToGettextModifier (unicodeScript : Option String) : Option String :=
  match unicodeScript with
  | none => none
  | some s =>
    if s.data = [] then none
    else (GettextModifierToUnicodeScriptDictionary.find? (fun row => strCaseEq row.2 s)).map (·.1)

/-- The three Gettext chunk separators `_`, `.`, `@`. -/
def isGettextSep (c : Char) : Bool :=
  c = '_' || c = '.' || c = '@'

/-- One separator-introduced chunk assignment of `GettextLocaleIDToLocaleChunks`
(the inner `switch (*separator)`): `_` sets `territory` unless territory,
codeset or modifier is already set; `.` sets `codeset` unless codeset or
modifier is already set; `@` sets `modifier` unless modifier is already set;
a violation is an error (`none`). -/
def gtAssign (lc : LocaleChunks) (sep : Char) (chunk : String) : Option LocaleChunks :=
  if sep = '_' then
    if lc.territory.isSome || lc.codeset.isSome || lc.modifier.isSome then none
    else some { lc with territory := some chunk }
  else if sep = '.' then
    if lc.codeset.isSome || lc.modifier.isSome then none
    else some { lc with codeset := some chunk }
  else if sep = '@' then
    if lc.modifier.isSome then none
    else some { lc with modifier := some chunk }
  else none

/-- The scanning loop of `GettextLocaleIDToLocaleChunks` after the language
chunk: `lc` is the record built so far, `sep` the most recent separator,
`cur` the current chunk accumulated so far (in reverse).  An empty chunk or a
character that is neither a separator nor alphanumeric is an error. -/
def gtScan (lc : LocaleChunks) (sep : Char) (cur : List Char) : List Char → Option LocaleChunks
  | [] => if cur = [] then none else gtAssign lc sep (String.mk cur.reverse)
  | c :: cs =>
    if isGettextSep c then
      if cur = [] then none
      else
        match gtAssign lc sep (String.mk cur.reverse) with
        | none => none
        | some lc2 => gtScan lc2 c [] cs
    else if isalnumc c then gtScan lc sep (c :: cur) cs
    else none

/-- The first phase of `GettextLocaleIDToLocaleChunks`: scanning the mandatory
leading language chunk (`cur` is the language accumulated so far, reversed).
An empty language is an error. -/
def gtScanLang (cur : List Char) : List Char → Option LocaleChunks
  | [] =>
    if cur = [] then none
    else some { emptyChunks with language := some (String.mk cur.reverse) }
  | c :: cs =>
    if isGettextSep c then
      if cur = [] then none
      else gtScan { emptyChunks with language := some (String.mk cur.reverse) } c [] cs
    else if isalnumc c then gtScanLang (c :: cur) cs
    else none

/-- `GettextLocaleIDToLocaleChunks`: parse a Gettext locale identifier
(`language[_territory][.codeset][@modifier]`). -/
def GettextLocaleIDToLocaleChunks (locale : String) : Option LocaleChunks :=
  gtScanLang [] locale.data

/-- `LocaleChunksToGettextLocaleID`: serialize to Gettext format.  Fails when
`language` is absent; the `@` chunk is the modifier if present, otherwise the
crosswalk translation of the script, otherwise omitted.  `isRoot` and
`variants` are never emitted. -/
def LocaleChunksToGettextLocaleID (lc : LocaleChunks) : Option String :=
  match lc.language with
  | none => none
  | some lang =>
    let modifier : Option String :=
      match lc.modifier with
      | some m => some m
      | none => UnicodeScriptToGettextModifier lc.script
    some (lang
      ++ (match lc.territory with | some t => "_" ++ t | none => "")
      ++ (match lc.codeset with | some c => "." ++ c | none => "")
      ++ (match modifier with | some m => "@" ++ m | none => ""))

/-- A chunk of the Unicode tokenizer: its characters, together with the
character that ended the chunk in the original buffer (`-`, `_`, or the NUL
terminator, modelled as `Char.ofNat 0`).  The C code keeps pointers into the
original string, so reading one position past a chunk's end (as the 3-digit
region branch does) reads exactly this character. -/
def UChunk : Type := List Char × Char

/-- `chunks[i][j]` of the C code: within the chunk it is the chunk character,
at the position one past the end it is the terminating character. -/
def tokAt (t : UChunk) (i : Nat) : Char :=
  if h : i < t.1.length then t.1.get ⟨i, h⟩ else t.2

/-- Length of a chunk (`chunkLengths[i]`). -/
def tokLen (t : UChunk) : Nat := t.1.length

/-- `strndup` of a chunk. -/
def tokStr (t : UChunk) : String := String.mk t.1

/-- The chunk-splitting loop of `UnicodeLocaleIDToLocaleChunks`: split on `-`
and `_`; an empty chunk or a non-alphanumeric character is bad data (`cur` is
the current chunk accumulated so far, in reverse). -/
def uniScan (cur : List Char) : List Char → Option (List UChunk)
  | [] =>
    if cur = [] then none else some [(cur.reverse, Char.ofNat 0)]
  | c :: cs =>
    if c = '-' || c = '_' then
      if cur = [] then none
      else
        match uniScan [] cs with
        | none => none
        | some ts => some ((cur.reverse, c) :: ts)
    else if isalnumc c then uniScan (c :: cur) cs
    else none

/-- Tokenization of a Unicode locale identifier into its chunks. -/
def uniTokenize (cs : List Char) : Option (List UChunk) :=
  uniScan [] cs

/-- The root/language/script steps of `UnicodeLocaleIDToLocaleChunks`:
the first chunk is `root` (case-sensitive, length 4), or an optional
2–3-letter language followed by an optional 4-letter script; having none of
root, language and script is bad data.  Returns `(isRoot, language, script,
remaining chunks)`. -/
def uniHead (toks : List UChunk) : Option (Bool × Option String × Option String × List UChunk) :=
  match toks with
  | [] => none
  | t0 :: rest =>
    if tokLen t0 = 4 ∧ t0.1 = "root".data then
      some (true, none, none, rest)
    else if 2 ≤ tokLen t0 ∧ tokLen t0 ≤ 3 then
      if isalphac (tokAt t0 0) ∧ isalphac (tokAt t0 1) ∧ (tokLen t0 = 2 ∨ isalphac (tokAt t0 2)) then
        match rest with
        | [] => some (false, some (tokStr t0), none, [])
        | t1 :: rest2 =>
          if tokLen t1 = 4 ∧ isalphac (tokAt t1 0) ∧ isalphac (tokAt t1 1)
              ∧ isalphac (tokAt t1 2) ∧ isalphac (tokAt t1 3) then
            some (false, some (tokStr t0), some (tokStr t1), rest2)
          else
            some (false, some (tokStr t0), none, rest)
      else none
    else if tokLen t0 = 4 ∧ isalphac (tokAt t0 0) ∧ isalphac (tokAt t0 1)
        ∧ isalphac (tokAt t0 2) ∧ isalphac (tokAt t0 3) then
      some (false, none, some (tokStr t0), rest)
    else none

/-- The optional region step: a 2-letter chunk is the territory; a 3-character
chunk is the territory when positions 0, 1 and 3 hold digits — position 3 is
one past the chunk's end, exactly as the C code reads `chunks[nextChunk][3]`
on a 3-character chunk; any other length leaves the chunk for the variant
step. -/
def uniRegion (toks : List UChunk) : Option (Option String × List UChunk) :=
  match toks with
  | [] => some (none, [])
  | t0 :: rest =>
    if tokLen t0 = 2 then
      if isalphac (tokAt t0 0) ∧ isalphac (tokAt t0 1) then
        some (some (tokStr t0), rest)
      else none
    else if tokLen t0 = 3 then
      if isdigitc (tokAt t0 0) ∧ isdigitc (tokAt t0 1) ∧ isdigitc (tokAt t0 3) then
        some (some (tokStr t0), rest)
      else none
    else some (none, toks)

/-- The per-chunk check of the variant loop: the C `switch` on the chunk
length checks alphanumerics at positions 4–7 for lengths 5–8 (via fallthrough)
and digit+alphanumerics for length 4; it has no `default` case, so every
other length passes unchecked. -/
def uniVariantOk (t : UChunk) : Bool :=
  match tokLen t with
  | 8 => isalnumc (tokAt t 7) && isalnumc (tokAt t 6) && isalnumc (tokAt t 5) && isalnumc (tokAt t 4)
  | 7 => isalnumc (tokAt t 6) && isalnumc (tokAt t 5) && isalnumc (tokAt t 4)
  | 6 => isalnumc (tokAt t 5) && isalnumc (tokAt t 4)
  | 5 => isalnumc (tokAt t 4)
  | 4 => isdigitc (tokAt t 0) && isalnumc (tokAt t 1) && isalnumc (tokAt t 2) && isalnumc (tokAt t 3)
  | _ => true

/-- The variant loop: all remaining chunks become variants, in order, provided
each passes `uniVariantOk`. -/
def uniVariants : List UChunk → Option (List String)
  | [] => some []
  | t :: rest =>
    if uniVariantOk t then
      match uniVariants rest with
      | none => none
      | some vs => some (tokStr t :: vs)
    else none

/-- The positional grammar of `UnicodeLocaleIDToLocaleChunks` over the chunk
list. -/
def uniGrammar (toks : List UChunk) : Option LocaleChunks :=
  match uniHead toks with
  | none => none
  | some (root, lang, scr, rest1) =>
    match uniRegion rest1 with
    | none => none
    | some (terr, rest2) =>
      match uniVariants rest2 with
      | none => none
      | some vars =>
        some { isRoot := root, language := lang, territory := terr,
               codeset := none, modifier := none, script := scr, variants := vars }

/-- `UnicodeLocaleIDToLocaleChunks`: parse a Unicode locale identifier. -/
def UnicodeLocaleIDToLocaleChunks (locale : String) : Option LocaleChunks :=
  match locale.data with
  | [] => none
  | _ :: _ =>
    match uniTokenize locale.data with
    | none => none
    | some toks => uniGrammar toks

/-- `LocaleChunksToUnicodeLocaleID`: serialize to the Unicode format, chunks
joined by `_`.  The script is the record's script, or else the crosswalk
translation of the modifier; the first chunk is `root`, or the language
(followed by the script if present), or the script alone; failing all of
those, the record is not serializable.  Then the territory and the variants
follow. -/
def LocaleChunksToUnicodeLocaleID (lc : LocaleChunks) : Option String :=
  let script : Option String :=
    match lc.script with
    | some s => some s
    | none => GettextModifierToUnicodeScript lc.modifier
  let tail : String → String := fun base =>
    lc.variants.foldl (fun acc v => acc ++ "_" ++ v)
      (match lc.territory with | some t => base ++ "_" ++ t | none => base)
  if lc.isRoot then some (tail "root")
  else
    match lc.language, script with
    | some lang, some s => some (tail (lang ++ "_" ++ s))
    | some lang, none => some (tail lang)
    | none, some s => some (tail s)
    | none, none => none

/-! ### Character class facts -/

theorem isalphac_alnum {c : Char} (h : isalphac c = true) : isalnumc c = true := by
  simp [isalnumc, h]

theorem isdigitc_alnum {c : Char} (h : isdigitc c = true) : isalnumc c = true := by
  simp [isalnumc, h]

theorem isdigitc_not_alpha {c : Char} (h : isdigitc c = true) : isalphac c = false := by
  simp [isdigitc] at h
  simp [isalphac]
  omega

theorem isalnumc_not_dash {c : Char} (h : isalnumc c = true) : ¬(c = '-' ∨ c = '_') := by
  rintro (rfl | rfl) <;> revert h <;> decide

/-! ### Tokenizer lemmas -/

theorem uniScan_sound : ∀ (cs : List Char) (cur : List Char) (ts : List UChunk),
    cur.all isalnumc = true → uniScan cur cs = some ts →
    ∀ t ∈ ts, t.1 ≠ [] ∧ t.1.all isalnumc = true ∧
      (t.2 = '-' ∨ t.2 = '_' ∨ t.2 = Char.ofNat 0) := by
  intro cs
  induction cs with
  | nil =>
    intro cur ts hcur hscan t ht
    simp only [uniScan] at hscan
    split at hscan
    · exact absurd hscan (by simp)
    · rename_i hne
      obtain rfl : ts = [(cur.reverse, Char.ofNat 0)] := by
        simpa using hscan.symm
      simp only [List.mem_singleton] at ht
      subst ht
      refine ⟨by simpa using hne, by simpa using hcur, by simp⟩
  | cons c cs ih =>
    intro cur ts hcur hscan t ht
    simp only [uniScan] at hscan
    split at hscan
    · rename_i hsep
      split at hscan
      · exact absurd hscan (by simp)
      · rename_i hne
        cases hrec : uniScan [] cs with
        | none => rw [hrec] at hscan; exact absurd hscan (by simp)
        | some ts2 =>
          rw [hrec] at hscan
          obtain rfl : ts = (cur.reverse, c) :: ts2 := by simpa using hscan.symm
          rcases List.mem_cons.mp ht with rfl | hmem
          · refine ⟨by simpa using hne, by simpa using hcur, ?_⟩
            have hsep' : c = '-' ∨ c = '_' := by simpa using hsep
            rcases hsep' with rfl | rfl
            · exact Or.inl rfl
            · exact Or.inr (Or.inl rfl)
          · exact ih [] ts2 (by simp) hrec t hmem
    · rename_i hsep
      split at hscan
      · rename_i halnum
        exact ih (c :: cur) ts (by simp [halnum, hcur]) hscan t ht
      · exact absurd hscan (by simp)

theorem uniScan_alnum_chunk : ∀ (x : List Char) (cur cs : List Char),
    x.all isalnumc = true →
    uniScan cur (x ++ cs) = uniScan (x.reverse ++ cur) cs := by
  intro x
  induction x with
  | nil => intro cur cs _; simp
  | cons c x ih =>
    intro cur cs hall
    simp only [List.all_cons, Bool.and_eq_true] at hall
    have hnotsep : ¬(c = '-' ∨ c = '_') := isalnumc_not_dash hall.1
    have h1 : uniScan cur ((c :: x) ++ cs) = uniScan (c :: cur) (x ++ cs) := by
      simp only [List.cons_append, uniScan]
      rw [if_neg (by simpa using hnotsep), if_pos hall.1]
      rfl
    rw [h1, ih (c :: cur) cs hall.2]
    simp

/-- Separator-flattening of a chunk list: `_ c₁ _ c₂ …`. -/
def sepFlat : List (List Char) → List Char
  | [] => []
  | x :: xs => '_' :: (x ++ sepFlat xs)

/-- Join a chunk list with `_` separators. -/
def joinU : List (List Char) → List Char
  | [] => []
  | x :: xs => x ++ sepFlat xs

/-- The chunk list as the tokenizer returns it for a `_`-joined string:
every chunk's terminating character is `_`, except the last, terminated by
the NUL. -/
def withF : List (List Char) → List UChunk
  | [] => []
  | [x] => [(x, Char.ofNat 0)]
  | x :: xs => (x, '_') :: withF xs

theorem withF_cons (x : List Char) (xs : List (List Char)) :
    withF (x :: xs) = (x, if xs.isEmpty then Char.ofNat 0 else '_') :: withF xs := by
  cases xs <;> rfl

theorem mem_withF {t : UChunk} : ∀ {ls : List (List Char)}, t ∈ withF ls → t.1 ∈ ls := by
  intro ls
  induction ls with
  | nil => simp [withF]
  | cons x xs ih =>
    intro hmem
    rw [withF_cons] at hmem
    rcases List.mem_cons.mp hmem with rfl | h
    · simp
    · exact List.mem_cons_of_mem x (ih h)

theorem uniTokenize_joinU : ∀ (ls : List (List Char)),
    (∀ l ∈ ls, l ≠ [] ∧ l.all isalnumc = true) → ls ≠ [] →
    uniTokenize (joinU ls) = some (withF ls) := by
  intro ls
  induction ls with
  | nil => intro _ h; exact absurd rfl h
  | cons x xs ih =>
    intro hall _
    obtain ⟨hx, hxal⟩ := hall x (by simp)
    cases xs with
    | nil =>
      have h1 : uniTokenize (joinU [x]) = uniScan (x.reverse ++ []) [] := by
        show uniScan [] (x ++ []) = _
        exact uniScan_alnum_chunk x [] [] hxal
      rw [h1]
      simp only [List.append_nil, uniScan]
      rw [if_neg (by simpa using hx)]
      simp [withF]
    | cons y ys =>
      have h1 : uniTokenize (joinU (x :: y :: ys)) =
          uniScan (x.reverse ++ []) ('_' :: (y ++ sepFlat ys)) := by
        show uniScan [] (x ++ ('_' :: (y ++ sepFlat ys))) = _
        exact uniScan_alnum_chunk x [] _ hxal
      rw [h1]
      simp only [List.append_nil, uniScan]
      rw [if_pos (by simp), if_neg (by simpa using hx)]
      have hrec : uniScan [] (y ++ sepFlat ys) = some (withF (y :: ys)) := by
        have := ih (fun l hl => hall l (List.mem_cons_of_mem x hl)) (by simp)
        simpa [uniTokenize, joinU] using this
      rw [hrec]
      simp [withF_cons]

/-! ### Token access helpers -/

/-- First character of a string (NUL for the empty string, as in C). -/
def firstChar (s : String) : Char := s.data.headD (Char.ofNat 0)

theorem string_mk_data (s : String) : String.mk s.data = s := rfl

theorem tokStr_mk (l : List Char) (f : Char) : tokStr (l, f) = String.mk l := rfl

theorem tokLen_eq (l : List Char) (f : Char) : tokLen (l, f) = l.length := rfl

theorem tokStr_length (t : UChunk) : (tokStr t).length = tokLen t := rfl

theorem tokAt_lt (t : UChunk) (i : Nat) (h : i < t.1.length) :
    tokAt t i = t.1.get ⟨i, h⟩ := by
  simp [tokAt, h]

theorem tokAt_ge (t : UChunk) (i : Nat) (h : ¬ i < t.1.length) : tokAt t i = t.2 := by
  simp [tokAt, h]

theorem tokAt_mem {l : List Char} {f : Char} {i : Nat} (hi : i < l.length) :
    tokAt (l, f) i ∈ l := by
  rw [tokAt_lt (l, f) i hi]
  exact List.get_mem l i hi

theorem tokAt_all {p : Char → Bool} {l : List Char} {f : Char} {i : Nat}
    (h : l.all p = true) (hi : i < l.length) : p (tokAt (l, f) i) = true :=
  List.all_eq_true.mp h _ (tokAt_mem hi)

theorem tokAt_zero_headD {l : List Char} {f : Char} (h : l ≠ []) :
    tokAt (l, f) 0 = l.headD (Char.ofNat 0) := by
  cases l with
  | nil => exact absurd rfl h
  | cons c cs => rw [tokAt_lt (c :: cs, f) 0 (by simp)]; rfl

/-! ### The invariant of Unicode-parse results -/

/-- Shape facts holding for every record produced by a successful
`UnicodeLocaleIDToLocaleChunks` parse. -/
structure GoodU (lc : LocaleChunks) : Prop where
  codeset_none : lc.codeset = none
  modifier_none : lc.modifier = none
  lang_shape : ∀ l, lc.language = some l →
    (l.length = 2 ∨ l.length = 3) ∧ l.data.all isalphac = true
  script_shape : ∀ s, lc.script = some s → s.length = 4 ∧ s.data.all isalphac = true
  terr_shape : ∀ t, lc.territory = some t → t.length = 2 ∧ t.data.all isalphac = true
  root_clean : lc.isRoot = true → lc.language = none ∧ lc.script = none
  head_present : lc.isRoot = true ∨ lc.language.isSome = true ∨ lc.script.isSome = true
  script_not_root : lc.language = none → lc.script ≠ some "root"
  var_shape : ∀ v ∈ lc.variants, v.data ≠ [] ∧ v.data.all isalnumc = true ∧
    (v.length = 4 → isdigitc (firstChar v) = true)
  var_head : lc.territory = none → ∀ v vs, lc.variants = v :: vs →
    v.length ≠ 2 ∧ v.length ≠ 3

/-! ### Grammar stage inversion lemmas -/

theorem tokAt_all' {p : Char → Bool} {t : UChunk} {i : Nat}
    (h : t.1.all p = true) (hi : i < t.1.length) : p (tokAt t i) = true := by
  rw [tokAt_lt t i hi]
  exact List.all_eq_true.mp h _ (List.get_mem _ i hi)

theorem all_alpha_of_checks23 (t : UChunk) (h2 : 2 ≤ tokLen t) (h3 : tokLen t ≤ 3)
    (ha : isalphac (tokAt t 0) = true) (hb : isalphac (tokAt t 1) = true)
    (hc : tokLen t = 2 ∨ isalphac (tokAt t 2) = true) :
    t.1.all isalphac = true := by
  rw [List.all_eq_true]
  intro v hv
  obtain ⟨⟨i, hi⟩, rfl⟩ := List.mem_iff_get.mp hv
  have hi3 : i < 3 := lt_of_lt_of_le hi h3
  rw [← tokAt_lt t i hi]
  interval_cases i
  · exact ha
  · exact hb
  · rcases hc with hc | hc
    · exact absurd hi (by rw [show t.1.length = tokLen t from rfl, hc]; omega)
    · exact hc

theorem all_alpha_of_checks4 (t : UChunk) (hlen : tokLen t = 4)
    (h0 : isalphac (tokAt t 0) = true) (h1 : isalphac (tokAt t 1) = true)
    (h2 : isalphac (tokAt t 2) = true) (h3 : isalphac (tokAt t 3) = true) :
    t.1.all isalphac = true := by
  rw [List.all_eq_true]
  intro v hv
  obtain ⟨⟨i, hi⟩, rfl⟩ := List.mem_iff_get.mp hv
  have hi4 : i < 4 := lt_of_lt_of_le hi (le_of_eq hlen)
  rw [← tokAt_lt t i hi]
  interval_cases i
  · exact h0
  · exact h1
  · exact h2
  · exact h3


theorem uniHead_nil : uniHead [] = none := rfl

theorem uniHead_cons_root (t0 : UChunk) (rest0 : List UChunk)
    (hroot : tokLen t0 = 4 ∧ t0.1 = "root".data) :
    uniHead (t0 :: rest0) = some (true, none, none, rest0) := by
  simp only [uniHead]
  rw [if_pos hroot]

theorem uniHead_cons_lang_nil (t0 : UChunk)
    (hroot : ¬(tokLen t0 = 4 ∧ t0.1 = "root".data))
    (hl : 2 ≤ tokLen t0 ∧ tokLen t0 ≤ 3)
    (ha : isalphac (tokAt t0 0) = true ∧ isalphac (tokAt t0 1) = true ∧
      (tokLen t0 = 2 ∨ isalphac (tokAt t0 2) = true)) :
    uniHead [t0] = some (false, some (tokStr t0), none, []) := by
  simp only [uniHead]
  rw [if_neg hroot, if_pos hl, if_pos ha]

theorem uniHead_cons_lang_script (t0 t1 : UChunk) (rest2 : List UChunk)
    (hroot : ¬(tokLen t0 = 4 ∧ t0.1 = "root".data))
    (hl : 2 ≤ tokLen t0 ∧ tokLen t0 ≤ 3)
    (ha : isalphac (tokAt t0 0) = true ∧ isalphac (tokAt t0 1) = true ∧
      (tokLen t0 = 2 ∨ isalphac (tokAt t0 2) = true))
    (hs : tokLen t1 = 4 ∧ isalphac (tokAt t1 0) = true ∧ isalphac (tokAt t1 1) = true ∧
      isalphac (tokAt t1 2) = true ∧ isalphac (tokAt t1 3) = true) :
    uniHead (t0 :: t1 :: rest2) = some (false, some (tokStr t0), some (tokStr t1), rest2) := by
  simp only [uniHead]
  rw [if_neg hroot, if_pos hl, if_pos ha, if_pos hs]

theorem uniHead_cons_lang_only (t0 t1 : UChunk) (rest2 : List UChunk)
    (hroot : ¬(tokLen t0 = 4 ∧ t0.1 = "root".data))
    (hl : 2 ≤ tokLen t0 ∧ tokLen t0 ≤ 3)
    (ha : isalphac (tokAt t0 0) = true ∧ isalphac (tokAt t0 1) = true ∧
      (tokLen t0 = 2 ∨ isalphac (tokAt t0 2) = true))
    (hs : ¬(tokLen t1 = 4 ∧ isalphac (tokAt t1 0) = true ∧ isalphac (tokAt t1 1) = true ∧
      isalphac (tokAt t1 2) = true ∧ isalphac (tokAt t1 3) = true)) :
    uniHead (t0 :: t1 :: rest2) = some (false, some (tokStr t0), none, t1 :: rest2) := by
  simp only [uniHead]
  rw [if_neg hroot, if_pos hl, if_pos ha, if_neg hs]

theorem uniHead_cons_lang_bad (t0 : UChunk) (rest0 : List UChunk)
    (hroot : ¬(tokLen t0 = 4 ∧ t0.1 = "root".data))
    (hl : 2 ≤ tokLen t0 ∧ tokLen t0 ≤ 3)
    (ha : ¬(isalphac (tokAt t0 0) = true ∧ isalphac (tokAt t0 1) = true ∧
      (tokLen t0 = 2 ∨ isalphac (tokAt t0 2) = true))) :
    uniHead (t0 :: rest0) = none := by
  simp only [uniHead]
  rw [if_neg hroot, if_pos hl, if_neg ha]

theorem uniHead_cons_script_only (t0 : UChunk) (rest0 : List UChunk)
    (hroot : ¬(tokLen t0 = 4 ∧ t0.1 = "root".data))
    (hl : ¬(2 ≤ tokLen t0 ∧ tokLen t0 ≤ 3))
    (hs : tokLen t0 = 4 ∧ isalphac (tokAt t0 0) = true ∧ isalphac (tokAt t0 1) = true ∧
      isalphac (tokAt t0 2) = true ∧ isalphac (tokAt t0 3) = true) :
    uniHead (t0 :: rest0) = some (false, none, some (tokStr t0), rest0) := by
  simp only [uniHead]
  rw [if_neg hroot, if_neg hl, if_pos hs]

theorem uniHead_cons_bad (t0 : UChunk) (rest0 : List UChunk)
    (hroot : ¬(tokLen t0 = 4 ∧ t0.1 = "root".data))
    (hl : ¬(2 ≤ tokLen t0 ∧ tokLen t0 ≤ 3))
    (hs : ¬(tokLen t0 = 4 ∧ isalphac (tokAt t0 0) = true ∧ isalphac (tokAt t0 1) = true ∧
      isalphac (tokAt t0 2) = true ∧ isalphac (tokAt t0 3) = true)) :
    uniHead (t0 :: rest0) = none := by
  simp only [uniHead]
  rw [if_neg hroot, if_neg hl, if_neg hs]

theorem uniRegion_nil : uniRegion [] = some (none, []) := rfl

theorem uniRegion_cons_two (t0 : UChunk) (rest : List UChunk) (h2 : tokLen t0 = 2)
    (ha : isalphac (tokAt t0 0) = true ∧ isalphac (tokAt t0 1) = true) :
    uniRegion (t0 :: rest) = some (some (tokStr t0), rest) := by
  simp only [uniRegion]
  rw [if_pos h2, if_pos ha]

theorem uniRegion_cons_two_bad (t0 : UChunk) (rest : List UChunk) (h2 : tokLen t0 = 2)
    (ha : ¬(isalphac (tokAt t0 0) = true ∧ isalphac (tokAt t0 1) = true)) :
    uniRegion (t0 :: rest) = none := by
  simp only [uniRegion]
  rw [if_pos h2, if_neg ha]

theorem uniRegion_cons_three (t0 : UChunk) (rest : List UChunk) (h2 : ¬ tokLen t0 = 2)
    (h3 : tokLen t0 = 3)
    (hd : isdigitc (tokAt t0 0) = true ∧ isdigitc (tokAt t0 1) = true ∧
      isdigitc (tokAt t0 3) = true) :
    uniRegion (t0 :: rest) = some (some (tokStr t0), rest) := by
  simp only [uniRegion]
  rw [if_neg h2, if_pos h3, if_pos hd]

theorem uniRegion_cons_three_bad (t0 : UChunk) (rest : List UChunk) (h2 : ¬ tokLen t0 = 2)
    (h3 : tokLen t0 = 3)
    (hd : ¬(isdigitc (tokAt t0 0) = true ∧ isdigitc (tokAt t0 1) = true ∧
      isdigitc (tokAt t0 3) = true)) :
    uniRegion (t0 :: rest) = none := by
  simp only [uniRegion]
  rw [if_neg h2, if_pos h3, if_neg hd]

theorem uniRegion_cons_skip (t0 : UChunk) (rest : List UChunk) (h2 : ¬ tokLen t0 = 2)
    (h3 : ¬ tokLen t0 = 3) :
    uniRegion (t0 :: rest) = some (none, t0 :: rest) := by
  simp only [uniRegion]
  rw [if_neg h2, if_neg h3]

theorem uniHead_inv {toks : List UChunk} {r : Bool} {l s : Option String} {rest : List UChunk}
    (h : uniHead toks = some (r, l, s, rest)) :
    (∀ t ∈ rest, t ∈ toks) ∧
    (r = true → l = none ∧ s = none ∧ ∃ f, toks = (("root".data, f) : UChunk) :: rest) ∧
    (r = false →
      (∀ lg, l = some lg → (lg.length = 2 ∨ lg.length = 3) ∧ lg.data.all isalphac = true) ∧
      (∀ sc, s = some sc → sc.length = 4 ∧ sc.data.all isalphac = true) ∧
      (l.isSome = true ∨ s.isSome = true) ∧
      (l = none → s ≠ some "root")) := by
  cases toks with
  | nil => rw [uniHead_nil] at h; exact absurd h (by simp)
  | cons t0 rest0 =>
    by_cases hroot : tokLen t0 = 4 ∧ t0.1 = "root".data
    · rw [uniHead_cons_root t0 rest0 hroot] at h
      simp only [Option.some.injEq, Prod.mk.injEq] at h
      obtain ⟨rfl, rfl, rfl, rfl⟩ := h
      refine ⟨fun t ht => List.mem_cons_of_mem _ ht, fun _ => ⟨rfl, rfl, ⟨t0.2, ?_⟩⟩, by simp⟩
      have heta : (("root".data, t0.2) : UChunk) = t0 := by
        rw [← hroot.2]
        exact Prod.mk.eta
      rw [heta]
    · by_cases hl : 2 ≤ tokLen t0 ∧ tokLen t0 ≤ 3
      · by_cases ha : isalphac (tokAt t0 0) = true ∧ isalphac (tokAt t0 1) = true ∧
            (tokLen t0 = 2 ∨ isalphac (tokAt t0 2) = true)
        · have hlg : (tokStr t0).length = 2 ∨ (tokStr t0).length = 3 := by
            rw [tokStr_length]
            omega
          have hlga : (tokStr t0).data.all isalphac = true :=
            all_alpha_of_checks23 t0 hl.1 hl.2 ha.1 ha.2.1 ha.2.2
          cases rest0 with
          | nil =>
            rw [uniHead_cons_lang_nil t0 hroot hl ha] at h
            simp only [Option.some.injEq, Prod.mk.injEq] at h
            obtain ⟨rfl, rfl, rfl, rfl⟩ := h
            refine ⟨by simp, by simp, fun _ => ⟨?_, by simp, by simp, by simp⟩⟩
            intro lg hlg2
            obtain rfl : tokStr t0 = lg := by simpa using hlg2
            exact ⟨hlg, hlga⟩
          | cons t1 rest1 =>
            by_cases hs : tokLen t1 = 4 ∧ isalphac (tokAt t1 0) = true ∧
                isalphac (tokAt t1 1) = true ∧ isalphac (tokAt t1 2) = true ∧
                isalphac (tokAt t1 3) = true
            · rw [uniHead_cons_lang_script t0 t1 rest1 hroot hl ha hs] at h
              simp only [Option.some.injEq, Prod.mk.injEq] at h
              obtain ⟨rfl, rfl, rfl, rfl⟩ := h
              refine ⟨fun t ht => List.mem_cons_of_mem _ (List.mem_cons_of_mem _ ht),
                by simp, fun _ => ⟨?_, ?_, by simp, by simp⟩⟩
              · intro lg hlg2
                obtain rfl : tokStr t0 = lg := by simpa using hlg2
                exact ⟨hlg, hlga⟩
              · intro sc hsc
                obtain rfl : tokStr t1 = sc := by simpa using hsc
                exact ⟨by rw [tokStr_length]; exact hs.1,
                  all_alpha_of_checks4 t1 hs.1 hs.2.1 hs.2.2.1 hs.2.2.2.1 hs.2.2.2.2⟩
            · rw [uniHead_cons_lang_only t0 t1 rest1 hroot hl ha hs] at h
              simp only [Option.some.injEq, Prod.mk.injEq] at h
              obtain ⟨rfl, rfl, rfl, rfl⟩ := h
              refine ⟨fun t ht => List.mem_cons_of_mem _ ht, by simp,
                fun _ => ⟨?_, by simp, by simp, by simp⟩⟩
              intro lg hlg2
              obtain rfl : tokStr t0 = lg := by simpa using hlg2
              exact ⟨hlg, hlga⟩
        · rw [uniHead_cons_lang_bad t0 rest0 hroot hl ha] at h
          exact absurd h (by simp)
      · by_cases hs : tokLen t0 = 4 ∧ isalphac (tokAt t0 0) = true ∧
            isalphac (tokAt t0 1) = true ∧ isalphac (tokAt t0 2) = true ∧
            isalphac (tokAt t0 3) = true
        · rw [uniHead_cons_script_only t0 rest0 hroot hl hs] at h
          simp only [Option.some.injEq, Prod.mk.injEq] at h
          obtain ⟨rfl, rfl, rfl, rfl⟩ := h
          refine ⟨fun t ht => List.mem_cons_of_mem _ ht, by simp,
            fun _ => ⟨by simp, ?_, by simp, ?_⟩⟩
          · intro sc hsc
            obtain rfl : tokStr t0 = sc := by simpa using hsc
            exact ⟨by rw [tokStr_length]; exact hs.1,
              all_alpha_of_checks4 t0 hs.1 hs.2.1 hs.2.2.1 hs.2.2.2.1 hs.2.2.2.2⟩
          · intro _ hcon
            have hts : tokStr t0 = "root" := by simpa using hcon
            exact hroot ⟨hs.1, congrArg String.data hts⟩
        · rw [uniHead_cons_bad t0 rest0 hroot hl hs] at h
          exact absurd h (by simp)

theorem uniRegion_inv {toks : List UChunk} {terr : Option String} {rest : List UChunk}
    (h : uniRegion toks = some (terr, rest)) :
    (terr = none ∧ rest = toks ∧ ∀ t0 tl, toks = t0 :: tl → tokLen t0 ≠ 2 ∧ tokLen t0 ≠ 3) ∨
    (∃ t0, toks = t0 :: rest ∧ terr = some (tokStr t0) ∧ tokLen t0 = 2 ∧
      isalphac (tokAt t0 0) = true ∧ isalphac (tokAt t0 1) = true) ∨
    (∃ t0, toks = t0 :: rest ∧ terr = some (tokStr t0) ∧ tokLen t0 = 3 ∧
      isdigitc (tokAt t0 3) = true) := by
  cases toks with
  | nil =>
    rw [uniRegion_nil] at h
    simp only [Option.some.injEq, Prod.mk.injEq] at h
    obtain ⟨rfl, rfl⟩ := h
    exact Or.inl ⟨rfl, rfl, by simp⟩
  | cons t0 tl =>
    by_cases h2 : tokLen t0 = 2
    · by_cases ha : isalphac (tokAt t0 0) = true ∧ isalphac (tokAt t0 1) = true
      · rw [uniRegion_cons_two t0 tl h2 ha] at h
        simp only [Option.some.injEq, Prod.mk.injEq] at h
        obtain ⟨rfl, rfl⟩ := h
        exact Or.inr (Or.inl ⟨t0, rfl, rfl, h2, ha.1, ha.2⟩)
      · rw [uniRegion_cons_two_bad t0 tl h2 ha] at h
        exact absurd h (by simp)
    · by_cases h3 : tokLen t0 = 3
      · by_cases hd : isdigitc (tokAt t0 0) = true ∧ isdigitc (tokAt t0 1) = true ∧
            isdigitc (tokAt t0 3) = true
        · rw [uniRegion_cons_three t0 tl h2 h3 hd] at h
          simp only [Option.some.injEq, Prod.mk.injEq] at h
          obtain ⟨rfl, rfl⟩ := h
          exact Or.inr (Or.inr ⟨t0, rfl, rfl, h3, hd.2.2⟩)
        · rw [uniRegion_cons_three_bad t0 tl h2 h3 hd] at h
          exact absurd h (by simp)
      · rw [uniRegion_cons_skip t0 tl h2 h3] at h
        simp only [Option.some.injEq, Prod.mk.injEq] at h
        obtain ⟨rfl, rfl⟩ := h
        refine Or.inl ⟨rfl, rfl, ?_⟩
        rintro t0' tl' heq
        obtain ⟨rfl, rfl⟩ : t0 = t0' ∧ tl = tl' := by
          simpa using heq
        exact ⟨h2, h3⟩

theorem uniVariants_inv : ∀ {ts : List UChunk} {vs : List String},
    uniVariants ts = some vs → vs = ts.map tokStr ∧ ∀ t ∈ ts, uniVariantOk t = true := by
  intro ts
  induction ts with
  | nil =>
    intro vs h
    obtain rfl : ([] : List String) = vs := Option.some.inj h
    exact ⟨rfl, by simp⟩
  | cons t tl ih =>
    intro vs h
    unfold uniVariants at h
    split at h
    · rename_i hok
      cases hrec : uniVariants tl with
      | none => rw [hrec] at h; exact absurd h (by simp)
      | some vs2 =>
        rw [hrec] at h
        obtain rfl : vs = tokStr t :: vs2 := by simpa using h.symm
        obtain ⟨rfl, hall⟩ := ih hrec
        refine ⟨by simp, ?_⟩
        intro t' ht'
        rcases List.mem_cons.mp ht' with rfl | hmem
        · exact hok
        · exact hall t' hmem
    · exact absurd h (by simp)

theorem uniVariantOk_len4 {t : UChunk} (hok : uniVariantOk t = true) (hlen : tokLen t = 4) :
    isdigitc (tokAt t 0) = true := by
  unfold uniVariantOk at hok
  rw [hlen] at hok
  simp only [Bool.and_eq_true] at hok
  exact hok.1.1.1

theorem uniVariantOk_of (t : UChunk) (hal : t.1.all isalnumc = true)
    (h4 : tokLen t = 4 → isdigitc (tokAt t 0) = true) : uniVariantOk t = true := by
  have hl : ∀ i, i < t.1.length → isalnumc (tokAt t i) = true := fun i hi => tokAt_all' hal hi
  unfold uniVariantOk
  split
  · rename_i heq
    have hlen : t.1.length = 8 := heq
    rw [hl 7 (by omega), hl 6 (by omega), hl 5 (by omega), hl 4 (by omega)]
    rfl
  · rename_i heq
    have hlen : t.1.length = 7 := heq
    rw [hl 6 (by omega), hl 5 (by omega), hl 4 (by omega)]
    rfl
  · rename_i heq
    have hlen : t.1.length = 6 := heq
    rw [hl 5 (by omega), hl 4 (by omega)]
    rfl
  · rename_i heq
    have hlen : t.1.length = 5 := heq
    rw [hl 4 (by omega)]
  · rename_i heq
    have hlen : t.1.length = 4 := heq
    rw [h4 heq, hl 1 (by omega), hl 2 (by omega), hl 3 (by omega)]
    rfl
  · rfl

theorem uniVariants_all (ts : List UChunk)
    (h : ∀ t ∈ ts, t.1 ≠ [] ∧ t.1.all isalnumc = true ∧
      (tokLen t = 4 → isdigitc (tokAt t 0) = true)) :
    uniVariants ts = some (ts.map tokStr) := by
  induction ts with
  | nil => rfl
  | cons t tl ih =>
    obtain ⟨_, hal, h4⟩ := h t (by simp)
    unfold uniVariants
    rw [if_pos (uniVariantOk_of t hal h4), ih (fun t' ht' => h t' (List.mem_cons_of_mem t ht'))]
    rfl

theorem uniTokenize_nil : uniTokenize [] = none := rfl

theorem unicode_parse_eq (x : String) :
    UnicodeLocaleIDToLocaleChunks x =
      match uniTokenize x.data with
      | none => none
      | some toks => uniGrammar toks := by
  unfold UnicodeLocaleIDToLocaleChunks
  cases hx : x.data with
  | nil => rfl
  | cons c cs => rfl

theorem unicode_parse_inv {x : String} {lc : LocaleChunks}
    (h : UnicodeLocaleIDToLocaleChunks x = some lc) :
    ∃ toks, uniTokenize x.data = some toks ∧ uniGrammar toks = some lc := by
  rw [unicode_parse_eq] at h
  cases htok : uniTokenize x.data with
  | none => rw [htok] at h; exact absurd h (by simp)
  | some toks => rw [htok] at h; exact ⟨toks, rfl, h⟩

theorem uniGrammar_inv {toks : List UChunk} {lc : LocaleChunks}
    (h : uniGrammar toks = some lc) :
    ∃ r l s rest1 terr rest2 vars,
      uniHead toks = some (r, l, s, rest1) ∧ uniRegion rest1 = some (terr, rest2) ∧
      uniVariants rest2 = some vars ∧
      lc = { isRoot := r, language := l, territory := terr, codeset := none,
             modifier := none, script := s, variants := vars } := by
  unfold uniGrammar at h
  cases hhead : uniHead toks with
  | none => rw [hhead] at h; exact absurd h (by simp)
  | some q =>
    obtain ⟨r, l, s, rest1⟩ := q
    rw [hhead] at h
    have h1 : (match uniRegion rest1 with
      | none => none
      | some (terr, rest2) =>
        match uniVariants rest2 with
        | none => none
        | some vars =>
          some { isRoot := r, language := l, territory := terr, codeset := none,
                 modifier := none, script := s, variants := vars }) = some lc := h
    cases hreg : uniRegion rest1 with
    | none => rw [hreg] at h1; exact absurd h1 (by simp)
    | some p =>
      obtain ⟨terr, rest2⟩ := p
      rw [hreg] at h1
      have h2 : (match uniVariants rest2 with
        | none => none
        | some vars =>
          some { isRoot := r, language := l, territory := terr, codeset := none,
                 modifier := none, script := s, variants := vars }) = some lc := h1
      cases hvars : uniVariants rest2 with
      | none => rw [hvars] at h2; exact absurd h2 (by simp)
      | some vars =>
        rw [hvars] at h2
        exact ⟨r, l, s, rest1, terr, rest2, vars, rfl, hreg, hvars, (Option.some.inj h2).symm⟩

theorem sep_not_digit {c : Char} (h : c = '-' ∨ c = '_' ∨ c = Char.ofNat 0) :
    isdigitc c = false := by
  rcases h with rfl | rfl | rfl <;> decide

/-- Every record produced by a successful Unicode parse satisfies `GoodU`. -/
theorem unicode_parse_good {x : String} {lc : LocaleChunks}
    (h : UnicodeLocaleIDToLocaleChunks x = some lc) : GoodU lc := by
  obtain ⟨toks, htok, hg⟩ := unicode_parse_inv h
  obtain ⟨r, l, s, rest1, terr, rest2, vars, hhead, hreg, hvars, rfl⟩ := uniGrammar_inv hg
  have tsound : ∀ t ∈ toks, t.1 ≠ [] ∧ t.1.all isalnumc = true ∧
      (t.2 = '-' ∨ t.2 = '_' ∨ t.2 = Char.ofNat 0) :=
    uniScan_sound x.data [] toks (by simp) htok
  obtain ⟨hmem1, hroot, hnonroot⟩ := uniHead_inv hhead
  have hreg' := uniRegion_inv hreg
  obtain ⟨hvarsEq, hvarsOk⟩ := uniVariants_inv hvars
  -- the out-of-bounds digit check can never succeed on a token of the input
  have hreg3 : ¬ (∃ t0, rest1 = t0 :: rest2 ∧ terr = some (tokStr t0) ∧ tokLen t0 = 3 ∧
      isdigitc (tokAt t0 3) = true) := by
    rintro ⟨t0, hr1, -, hlen3, hdig⟩
    have ht0 : t0 ∈ toks := hmem1 t0 (hr1 ▸ List.mem_cons_self t0 rest2)
    have h3ge : ¬ (3 : Nat) < t0.1.length := by
      rw [show t0.1.length = tokLen t0 from rfl, hlen3]
      omega
    rw [tokAt_ge t0 3 h3ge] at hdig
    rw [sep_not_digit (tsound t0 ht0).2.2] at hdig
    exact absurd hdig (by simp)
  have hmem2 : ∀ t ∈ rest2, t ∈ toks := by
    intro t ht
    rcases hreg' with ⟨-, hr, -⟩ | ⟨t0, hr1, -⟩ | habs
    · exact hmem1 t (hr ▸ ht)
    · exact hmem1 t (hr1 ▸ List.mem_cons_of_mem t0 ht)
    · exact absurd habs hreg3
  constructor
  · rfl
  · rfl
  · -- language shape
    intro lg hlg
    cases r with
    | false => exact (hnonroot rfl).1 lg hlg
    | true => rw [(hroot rfl).1] at hlg; exact absurd hlg (by simp)
  · -- script shape
    intro sc hsc
    cases r with
    | false => exact (hnonroot rfl).2.1 sc hsc
    | true => rw [(hroot rfl).2.1] at hsc; exact absurd hsc (by simp)
  · -- territory shape
    intro t ht
    rcases hreg' with ⟨hn, -, -⟩ | ⟨t0, -, hterr, hlen2, ha0, ha1⟩ | habs
    · rw [hn] at ht; exact absurd ht (by simp)
    · rw [hterr] at ht
      obtain rfl : tokStr t0 = t := Option.some.inj ht
      refine ⟨by rw [tokStr_length]; exact hlen2, ?_⟩
      exact all_alpha_of_checks23 t0 (by omega) (by omega) ha0 ha1 (Or.inl hlen2)
    · exact absurd habs hreg3
  · -- root is clean
    intro hr
    cases r with
    | false => exact absurd hr (by simp)
    | true => exact ⟨(hroot rfl).1, (hroot rfl).2.1⟩
  · -- root, language or script present
    cases r with
    | false =>
      rcases (hnonroot rfl).2.2.1 with hls | hls
      · exact Or.inr (Or.inl hls)
      · exact Or.inr (Or.inr hls)
    | true => exact Or.inl rfl
  · -- a headless script is never the literal "root"
    intro hlnone
    cases r with
    | false => exact (hnonroot rfl).2.2.2 hlnone
    | true => rw [(hroot rfl).2.1]; simp
  · -- variant shapes
    intro v hv
    rw [hvarsEq] at hv
    obtain ⟨t, htmem, rfl⟩ := List.mem_map.mp hv
    obtain ⟨tc, tf⟩ := t
    obtain ⟨hne, hal, -⟩ := tsound (tc, tf) (hmem2 (tc, tf) htmem)
    have hne' : tc ≠ [] := hne
    refine ⟨hne, hal, ?_⟩
    intro hlen4
    have hdig : isdigitc (tokAt (tc, tf) 0) = true :=
      uniVariantOk_len4 (hvarsOk (tc, tf) htmem) (by rw [← tokStr_length]; exact hlen4)
    show isdigitc (tc.headD (Char.ofNat 0)) = true
    rw [← tokAt_zero_headD (f := tf) hne']
    exact hdig
  · -- first variant length with no territory
    intro hterrnone v vs hvv
    rcases hreg' with ⟨-, hr, hhd⟩ | ⟨t0, -, hterr, -⟩ | habs
    · rw [hvarsEq] at hvv
      cases rest2 with
      | nil => exact absurd hvv (by simp)
      | cons t tl =>
        obtain ⟨rfl, -⟩ : tokStr t = v ∧ tl.map tokStr = vs := by simpa using hvv
        have := hhd t tl hr.symm
        rw [tokStr_length]
        exact this
    · have hterr2 : terr = none := hterrnone
      rw [hterr2] at hterr
      exact absurd hterr (by simp)
    · exact absurd habs hreg3

/-! ### Serializer output as a joined chunk list -/

/-- Join a list of chunks with `_` separators (string level). -/
def joinS : List String → String
  | [] => ""
  | x :: xs => xs.foldl (fun a b => a ++ "_" ++ b) x

/-- The chunk sequence emitted by `LocaleChunksToUnicodeLocaleID` for a record
whose modifier is absent (so the script needs no crosswalk resolution). -/
def uniContents (lc : LocaleChunks) : List String :=
  (if lc.isRoot then ["root"] else lc.language.toList ++ lc.script.toList)
    ++ lc.territory.toList ++ lc.variants

theorem joinS_cons (x : String) (l : List String) :
    joinS (x :: l) = l.foldl (fun a b => a ++ "_" ++ b) x := rfl

theorem joinS_cons_cons (x y : String) (l : List String) :
    joinS (x :: y :: l) = joinS ((x ++ "_" ++ y) :: l) := by
  rw [joinS_cons, joinS_cons, List.foldl_cons]

theorem foldl_tail (base : String) (terr : Option String) (vars : List String) :
    vars.foldl (fun a b => a ++ "_" ++ b)
      (match terr with | some t => base ++ "_" ++ t | none => base)
    = joinS (base :: (terr.toList ++ vars)) := by
  cases terr with
  | none => rw [joinS_cons]; rfl
  | some t =>
    show vars.foldl (fun a b => a ++ "_" ++ b) (base ++ "_" ++ t) = _
    rw [show (some t).toList ++ vars = t :: vars from rfl, joinS_cons, List.foldl_cons]

theorem tokLen_data (s : String) (f : Char) : tokLen (s.data, f) = s.length := rfl

/-- For a record with no modifier and a presentable head, the Unicode
serializer emits exactly the `_`-join of `uniContents`. -/
theorem uniSerialize_eq (lc : LocaleChunks) (hmod : lc.modifier = none)
    (hhead : lc.isRoot = true ∨ lc.language.isSome = true ∨ lc.script.isSome = true) :
    LocaleChunksToUnicodeLocaleID lc = some (joinS (uniContents lc)) := by
  obtain ⟨root, lang, terr, cod, mod, scr, vars⟩ := lc
  obtain rfl : mod = none := hmod
  cases root with
  | true =>
    clear hhead
    show some (vars.foldl (fun a b => a ++ "_" ++ b)
      (match terr with | some t => "root" ++ "_" ++ t | none => "root")) = _
    rw [foldl_tail]
    have hc : uniContents ⟨true, lang, terr, cod, none, scr, vars⟩ =
        "root" :: (terr.toList ++ vars) := by simp [uniContents]
    rw [hc]
  | false =>
    cases lang with
    | some lg =>
      cases scr with
      | some sc =>
        clear hhead
        show some (vars.foldl (fun a b => a ++ "_" ++ b)
          (match terr with
           | some t => (lg ++ "_" ++ sc) ++ "_" ++ t
           | none => lg ++ "_" ++ sc)) = _
        rw [foldl_tail]
        have hc : uniContents ⟨false, some lg, terr, cod, none, some sc, vars⟩ =
            lg :: sc :: (terr.toList ++ vars) := by simp [uniContents]
        rw [hc, joinS_cons_cons]
      | none =>
        clear hhead
        show some (vars.foldl (fun a b => a ++ "_" ++ b)
          (match terr with | some t => lg ++ "_" ++ t | none => lg)) = _
        rw [foldl_tail]
        have hc : uniContents ⟨false, some lg, terr, cod, none, none, vars⟩ =
            lg :: (terr.toList ++ vars) := by simp [uniContents]
        rw [hc]
    | none =>
      cases scr with
      | some sc =>
        clear hhead
        show some (vars.foldl (fun a b => a ++ "_" ++ b)
          (match terr with | some t => sc ++ "_" ++ t | none => sc)) = _
        rw [foldl_tail]
        have hc : uniContents ⟨false, none, terr, cod, none, some sc, vars⟩ =
            sc :: (terr.toList ++ vars) := by simp [uniContents]
        rw [hc]
      | none =>
        rcases hhead with h | h | h <;> simp at h

/-! ### Reparsing the serialized form -/

theorem string_data_append (a b : String) : (a ++ b).data = a.data ++ b.data := rfl

theorem all_alpha_alnum {l : List Char} (h : l.all isalphac = true) : l.all isalnumc = true := by
  rw [List.all_eq_true] at h ⊢
  exact fun c hc => isalphac_alnum (h c hc)

theorem map_tokStr_withF : ∀ ls : List (List Char), (withF ls).map tokStr = ls.map String.mk := by
  intro ls
  induction ls with
  | nil => rfl
  | cons x xs ih => rw [withF_cons]; simp only [List.map_cons, ih]; rfl

theorem withF_map_data (vs : List String) : (withF (vs.map String.data)).map tokStr = vs := by
  rw [map_tokStr_withF, List.map_map]
  have hid : (String.mk ∘ String.data) = id := funext fun s => rfl
  rw [hid, List.map_id]

theorem joinS_data_cons : ∀ (xs : List String) (x : String),
    (joinS (x :: xs)).data = joinU ((x :: xs).map String.data) := by
  intro xs
  induction xs with
  | nil =>
    intro x
    show x.data = joinU [x.data]
    simp [joinU, sepFlat]
  | cons y ys ih =>
    intro x
    rw [joinS_cons_cons x y ys, ih (x ++ "_" ++ y)]
    show ((x ++ "_" ++ y)).data ++ sepFlat (List.map String.data ys) =
      x.data ++ sepFlat (List.map String.data (y :: ys))
    rw [string_data_append, string_data_append]
    simp [sepFlat, List.append_assoc]

theorem uniGrammar_mk {toks : List UChunk} {r : Bool} {l s : Option String}
    {rest1 : List UChunk} {terr : Option String} {rest2 : List UChunk} {vars : List String}
    (h1 : uniHead toks = some (r, l, s, rest1))
    (h2 : uniRegion rest1 = some (terr, rest2))
    (h3 : uniVariants rest2 = some vars) :
    uniGrammar toks = some { isRoot := r, language := l, territory := terr, codeset := none, modifier := none, script := s, variants := vars } := by
  unfold uniGrammar
  rw [h1]
  show (match uniRegion rest1 with
    | none => none
    | some (terr, rest2) =>
      match uniVariants rest2 with
      | none => none
      | some vars =>
        some ({ isRoot := r, language := l, territory := terr, codeset := none, modifier := none, script := s, variants := vars } : LocaleChunks)) = _
  rw [h2]
  show (match uniVariants rest2 with
    | none => none
    | some vars =>
      some ({ isRoot := r, language := l, territory := terr, codeset := none, modifier := none, script := s, variants := vars } : LocaleChunks)) = _
  rw [h3]

theorem tail_facts {vars : List String}
    (hvars : ∀ v ∈ vars, v.data ≠ [] ∧ v.data.all isalnumc = true ∧
      (v.length = 4 → isdigitc (firstChar v) = true)) :
    ∀ t ∈ withF (vars.map String.data), t.1 ≠ [] ∧ t.1.all isalnumc = true ∧
      (tokLen t = 4 → isdigitc (tokAt t 0) = true) := by
  intro t ht
  have h1 : t.1 ∈ vars.map String.data := mem_withF ht
  obtain ⟨v, hv, hveq⟩ := List.mem_map.mp h1
  obtain ⟨tc, tf⟩ := t
  have hveq' : v.data = tc := hveq
  subst hveq'
  obtain ⟨hne, hal, h4⟩ := hvars v hv
  refine ⟨hne, hal, ?_⟩
  intro hlen
  have hvl : v.length = 4 := hlen
  rw [tokAt_zero_headD (f := tf) hne]
  exact h4 hvl

theorem tail_reparse (terr : Option String) (vars : List String)
    (hterr : ∀ t, terr = some t → t.length = 2 ∧ t.data.all isalphac = true)
    (hvars : ∀ v ∈ vars, v.data ≠ [] ∧ v.data.all isalnumc = true ∧
      (v.length = 4 → isdigitc (firstChar v) = true))
    (hvh : terr = none → ∀ v vs, vars = v :: vs → v.length ≠ 2 ∧ v.length ≠ 3) :
    uniRegion (withF ((terr.toList ++ vars).map String.data)) =
      some (terr, withF (vars.map String.data)) ∧
    uniVariants (withF (vars.map String.data)) = some vars := by
  have hvariants : uniVariants (withF (vars.map String.data)) = some vars := by
    rw [uniVariants_all _ (tail_facts hvars), withF_map_data]
  refine ⟨?_, hvariants⟩
  cases terr with
  | some t =>
    obtain ⟨hl2, hal⟩ := hterr t rfl
    have hdl : t.data.length = 2 := hl2
    have hlst : ((some t).toList ++ vars).map String.data = t.data :: vars.map String.data := by
      simp
    rw [hlst, withF_cons]
    refine (uniRegion_cons_two _ _ ?_ ⟨?_, ?_⟩).trans ?_
    · exact hl2
    · exact tokAt_all' hal (by show 0 < t.data.length; omega)
    · exact tokAt_all' hal (by show 1 < t.data.length; omega)
    · rfl
  | none =>
    have hlst : ((none : Option String).toList ++ vars).map String.data =
        vars.map String.data := by simp
    rw [hlst]
    cases vars with
    | nil => exact uniRegion_nil
    | cons v vs =>
      obtain ⟨hne2, hne3⟩ := hvh rfl v vs rfl
      simp only [List.map_cons]
      rw [withF_cons]
      refine (uniRegion_cons_skip _ _ ?_ ?_).trans ?_
      · intro hcon
        exact hne2 hcon
      · intro hcon
        exact hne3 hcon
      · rfl

/-- Re-parsing the chunk sequence emitted by the serializer reproduces the
record exactly, for any record satisfying the parser invariant. -/
theorem uniGrammar_reparse (lc : LocaleChunks) (hg : GoodU lc) :
    uniGrammar (withF ((uniContents lc).map String.data)) = some lc := by
  obtain ⟨root, lang, terr, cod, mod, scr, vars⟩ := lc
  obtain rfl : cod = none := hg.codeset_none
  obtain rfl : mod = none := hg.modifier_none
  have TR := tail_reparse terr vars (fun t ht => hg.terr_shape t ht)
    (fun v hv => hg.var_shape v hv) (fun hn v vs hv => hg.var_head hn v vs hv)
  cases root with
  | true =>
    obtain rfl : lang = none := (hg.root_clean rfl).1
    obtain rfl : scr = none := (hg.root_clean rfl).2
    have hc : (uniContents ⟨true, none, terr, none, none, none, vars⟩).map String.data =
        "root".data :: (terr.toList ++ vars).map String.data := by
      simp [uniContents]
    rw [hc, withF_cons]
    exact uniGrammar_mk (uniHead_cons_root _ _ ⟨rfl, rfl⟩) TR.1 TR.2
  | false =>
    cases lang with
    | some lg =>
      obtain ⟨hlg_len, hlg_alpha⟩ := hg.lang_shape lg rfl
      have hlg_dlen : lg.data.length = 2 ∨ lg.data.length = 3 := hlg_len
      have hroot0 : ∀ f : Char,
          ¬(tokLen ((lg.data, f) : UChunk) = 4 ∧ ((lg.data, f) : UChunk).1 = "root".data) := by
        intro f hcon
        have h4 : lg.data.length = 4 := hcon.1
        rcases hlg_dlen with h | h <;> omega
      have hl23 : ∀ f : Char,
          2 ≤ tokLen ((lg.data, f) : UChunk) ∧ tokLen ((lg.data, f) : UChunk) ≤ 3 := by
        intro f
        refine ⟨?_, ?_⟩
        · show 2 ≤ lg.data.length
          rcases hlg_dlen with h | h <;> omega
        · show lg.data.length ≤ 3
          rcases hlg_dlen with h | h <;> omega
      have ha23 : ∀ f : Char,
          isalphac (tokAt ((lg.data, f) : UChunk) 0) = true ∧
          isalphac (tokAt ((lg.data, f) : UChunk) 1) = true ∧
          (tokLen ((lg.data, f) : UChunk) = 2 ∨ isalphac (tokAt ((lg.data, f) : UChunk) 2) = true) := by
        intro f
        refine ⟨tokAt_all' hlg_alpha (by show 0 < lg.data.length; rcases hlg_dlen with h | h <;> omega),
          tokAt_all' hlg_alpha (by show 1 < lg.data.length; rcases hlg_dlen with h | h <;> omega), ?_⟩
        rcases hlg_dlen with h | h
        · exact Or.inl h
        · exact Or.inr (tokAt_all' hlg_alpha (by show 2 < lg.data.length; omega))
      cases scr with
      | some sc =>
        obtain ⟨hsc_len, hsc_alpha⟩ := hg.script_shape sc rfl
        have hsc_dlen : sc.data.length = 4 := hsc_len
        have hsccond : ∀ f : Char, tokLen ((sc.data, f) : UChunk) = 4 ∧
            isalphac (tokAt ((sc.data, f) : UChunk) 0) = true ∧
            isalphac (tokAt ((sc.data, f) : UChunk) 1) = true ∧
            isalphac (tokAt ((sc.data, f) : UChunk) 2) = true ∧
            isalphac (tokAt ((sc.data, f) : UChunk) 3) = true := by
          intro f
          exact ⟨hsc_dlen, tokAt_all' hsc_alpha (by show 0 < sc.data.length; omega),
            tokAt_all' hsc_alpha (by show 1 < sc.data.length; omega),
            tokAt_all' hsc_alpha (by show 2 < sc.data.length; omega),
            tokAt_all' hsc_alpha (by show 3 < sc.data.length; omega)⟩
        have hc : (uniContents ⟨false, some lg, terr, none, none, some sc, vars⟩).map String.data =
            lg.data :: sc.data :: (terr.toList ++ vars).map String.data := by
          simp [uniContents]
        rw [hc, withF_cons, withF_cons]
        exact uniGrammar_mk
          (uniHead_cons_lang_script _ _ _ (hroot0 _) (hl23 _) (ha23 _) (hsccond _)) TR.1 TR.2
      | none =>
        have hc : (uniContents ⟨false, some lg, terr, none, none, none, vars⟩).map String.data =
            lg.data :: (terr.toList ++ vars).map String.data := by
          simp [uniContents]
        rw [hc, withF_cons]
        cases terr with
        | some t =>
          obtain ⟨ht_len, -⟩ := hg.terr_shape t rfl
          have ht_dlen : t.data.length = 2 := ht_len
          have hc2 : ((some t).toList ++ vars).map String.data =
              t.data :: vars.map String.data := by simp
          rw [hc2, withF_cons]
          rw [hc2, withF_cons] at TR
          have hsneg : ∀ f : Char,
              ¬(tokLen ((t.data, f) : UChunk) = 4 ∧ isalphac (tokAt ((t.data, f) : UChunk) 0) = true ∧
                isalphac (tokAt ((t.data, f) : UChunk) 1) = true ∧
                isalphac (tokAt ((t.data, f) : UChunk) 2) = true ∧
                isalphac (tokAt ((t.data, f) : UChunk) 3) = true) := by
            intro f hcon
            have h4 : t.data.length = 4 := hcon.1
            omega
          exact uniGrammar_mk
            (uniHead_cons_lang_only _ _ _ (hroot0 _) (hl23 _) (ha23 _) (hsneg _)) TR.1 TR.2
        | none =>
          cases vars with
          | nil =>
            exact uniGrammar_mk
              (uniHead_cons_lang_nil (lg.data, Char.ofNat 0) (hroot0 _) (hl23 _) (ha23 _))
              uniRegion_nil rfl
          | cons v vs =>
            obtain ⟨hvne, hval, hv4⟩ := hg.var_shape v (by simp)
            have hsneg : ∀ f : Char,
                ¬(tokLen ((v.data, f) : UChunk) = 4 ∧ isalphac (tokAt ((v.data, f) : UChunk) 0) = true ∧
                  isalphac (tokAt ((v.data, f) : UChunk) 1) = true ∧
                  isalphac (tokAt ((v.data, f) : UChunk) 2) = true ∧
                  isalphac (tokAt ((v.data, f) : UChunk) 3) = true) := by
              intro f hcon
              have hdl : v.data.length = 4 := hcon.1
              have hd : isdigitc (firstChar v) = true := hv4 hdl
              have hfa : isalphac (tokAt ((v.data, f) : UChunk) 0) = false := by
                rw [tokAt_zero_headD (f := f) hvne]
                exact isdigitc_not_alpha hd
              rw [hfa] at hcon
              exact absurd hcon.2.1 (by simp)
            have hc2 : ((none : Option String).toList ++ v :: vs).map String.data =
                v.data :: vs.map String.data := by simp
            rw [hc2, withF_cons]
            rw [hc2, withF_cons] at TR
            exact uniGrammar_mk
              (uniHead_cons_lang_only _ _ _ (hroot0 _) (hl23 _) (ha23 _) (hsneg _)) TR.1 TR.2
    | none =>
      cases scr with
      | some sc =>
        obtain ⟨hsc_len, hsc_alpha⟩ := hg.script_shape sc rfl
        have hsc_dlen : sc.data.length = 4 := hsc_len
        have hsc_ne_root : sc ≠ "root" := fun hcon => (hg.script_not_root rfl) (by rw [hcon])
        have hroot0 : ∀ f : Char,
            ¬(tokLen ((sc.data, f) : UChunk) = 4 ∧ ((sc.data, f) : UChunk).1 = "root".data) := by
          intro f hcon
          exact hsc_ne_root (congrArg String.mk hcon.2)
        have hlneg : ∀ f : Char,
            ¬(2 ≤ tokLen ((sc.data, f) : UChunk) ∧ tokLen ((sc.data, f) : UChunk) ≤ 3) := by
          intro f hcon
          have h3 : sc.data.length ≤ 3 := hcon.2
          omega
        have hsccond : ∀ f : Char, tokLen ((sc.data, f) : UChunk) = 4 ∧
            isalphac (tokAt ((sc.data, f) : UChunk) 0) = true ∧
            isalphac (tokAt ((sc.data, f) : UChunk) 1) = true ∧
            isalphac (tokAt ((sc.data, f) : UChunk) 2) = true ∧
            isalphac (tokAt ((sc.data, f) : UChunk) 3) = true := by
          intro f
          exact ⟨hsc_dlen, tokAt_all' hsc_alpha (by show 0 < sc.data.length; omega),
            tokAt_all' hsc_alpha (by show 1 < sc.data.length; omega),
            tokAt_all' hsc_alpha (by show 2 < sc.data.length; omega),
            tokAt_all' hsc_alpha (by show 3 < sc.data.length; omega)⟩
        have hc : (uniContents ⟨false, none, terr, none, none, some sc, vars⟩).map String.data =
            sc.data :: (terr.toList ++ vars).map String.data := by
          simp [uniContents]
        rw [hc, withF_cons]
        exact uniGrammar_mk
          (uniHead_cons_script_only _ _ (hroot0 _) (hlneg _) (hsccond _)) TR.1 TR.2
      | none =>
        rcases hg.head_present with h | h | h <;> simp at h

theorem joinS_data (ls : List String) : (joinS ls).data = joinU (ls.map String.data) := by
  cases ls with
  | nil => rfl
  | cons x xs => exact joinS_data_cons xs x

theorem uniContents_facts (lc : LocaleChunks) (hg : GoodU lc) :
    ∀ l ∈ (uniContents lc).map String.data, l ≠ [] ∧ l.all isalnumc = true := by
  intro l hl
  obtain ⟨v, hv, rfl⟩ := List.mem_map.mp hl
  unfold uniContents at hv
  rcases List.mem_append.mp hv with hv12 | hvv
  · rcases List.mem_append.mp hv12 with hv0 | hvt
    · cases hroot : lc.isRoot with
      | true =>
        rw [hroot, if_pos rfl] at hv0
        obtain rfl : v = "root" := by simpa using hv0
        exact ⟨by decide, by decide⟩
      | false =>
        rw [hroot, if_neg (by simp)] at hv0
        rcases List.mem_append.mp hv0 with hvl | hvs
        · have hsome : lc.language = some v := by
            cases hll : lc.language with
            | none => rw [hll] at hvl; simp at hvl
            | some lg =>
              rw [hll] at hvl
              obtain rfl : v = lg := by simpa using hvl
              rfl
          obtain ⟨hlen, halpha⟩ := hg.lang_shape v hsome
          refine ⟨?_, all_alpha_alnum halpha⟩
          have hdl : v.data.length = 2 ∨ v.data.length = 3 := hlen
          intro hnil'
          rw [hnil'] at hdl
          simp at hdl
        · have hsome : lc.script = some v := by
            cases hss : lc.script with
            | none => rw [hss] at hvs; simp at hvs
            | some sc =>
              rw [hss] at hvs
              obtain rfl : v = sc := by simpa using hvs
              rfl
          obtain ⟨hlen, halpha⟩ := hg.script_shape v hsome
          refine ⟨?_, all_alpha_alnum halpha⟩
          have hdl : v.data.length = 4 := hlen
          intro hnil'
          rw [hnil'] at hdl
          simp at hdl
    · have hsome : lc.territory = some v := by
        cases htt : lc.territory with
        | none => rw [htt] at hvt; simp at hvt
        | some t =>
          rw [htt] at hvt
          obtain rfl : v = t := by simpa using hvt
          rfl
      obtain ⟨hlen, halpha⟩ := hg.terr_shape v hsome
      refine ⟨?_, all_alpha_alnum halpha⟩
      have hdl : v.data.length = 2 := hlen
      intro hnil'
      rw [hnil'] at hdl
      simp at hdl
  · obtain ⟨hne, hal, -⟩ := hg.var_shape v hvv
    exact ⟨hne, hal⟩

theorem uniContents_ne_nil (lc : LocaleChunks) (hg : GoodU lc) :
    (uniContents lc).map String.data ≠ [] := by
  intro hcon
  rw [List.map_eq_nil] at hcon
  unfold uniContents at hcon
  rcases List.append_eq_nil.mp hcon with ⟨h12, -⟩
  rcases List.append_eq_nil.mp h12 with ⟨h0, -⟩
  cases hroot : lc.isRoot with
  | true =>
    rw [hroot, if_pos rfl] at h0
    exact List.cons_ne_nil _ _ h0
  | false =>
    rw [hroot, if_neg (by simp)] at h0
    rcases List.append_eq_nil.mp h0 with ⟨hlg, hsc⟩
    rcases hg.head_present with h | h | h
    · rw [hroot] at h; exact absurd h (by simp)
    · cases hll : lc.language with
      | none => rw [hll] at h; exact absurd h (by simp)
      | some lg => rw [hll] at hlg; simp at hlg
    · cases hss : lc.script with
      | none => rw [hss] at h; exact absurd h (by simp)
      | some sc => rw [hss] at hsc; simp at hsc

/-- Parsing the serialized form of a `GoodU` record succeeds and reproduces
the record. -/
theorem unicode_reparse (lc : LocaleChunks) (hg : GoodU lc) :
    UnicodeLocaleIDToLocaleChunks (joinS (uniContents lc)) = some lc := by
  rw [unicode_parse_eq]
  have hdata : (joinS (uniContents lc)).data = joinU ((uniContents lc).map String.data) :=
    joinS_data _
  rw [hdata, uniTokenize_joinU _ (uniContents_facts lc hg) (uniContents_ne_nil lc hg)]
  show uniGrammar (withF ((uniContents lc).map String.data)) = some lc
  exact uniGrammar_reparse lc hg

/-! ### Gettext parser invariants -/

theorem gtAssign_fields {lc : LocaleChunks} {sep : Char} {ch : String} {lc' : LocaleChunks}
    (h : gtAssign lc sep ch = some lc') :
    lc'.isRoot = lc.isRoot ∧ lc'.script = lc.script ∧ lc'.variants = lc.variants ∧
    lc'.language = lc.language := by
  unfold gtAssign at h
  split at h
  · split at h
    · exact absurd h (by simp)
    · obtain rfl : { lc with territory := some ch } = lc' := by simpa using h
      simp
  · split at h
    · split at h
      · exact absurd h (by simp)
      · obtain rfl : { lc with codeset := some ch } = lc' := by simpa using h
        simp
    · split at h
      · split at h
        · exact absurd h (by simp)
        · obtain rfl : { lc with modifier := some ch } = lc' := by simpa using h
          simp
      · exact absurd h (by simp)

theorem gtScan_fields : ∀ (cs : List Char) (lc : LocaleChunks) (sep : Char) (cur : List Char)
    (lc' : LocaleChunks), gtScan lc sep cur cs = some lc' →
    lc'.isRoot = lc.isRoot ∧ lc'.script = lc.script ∧ lc'.variants = lc.variants ∧
    lc'.language = lc.language := by
  intro cs
  induction cs with
  | nil =>
    intro lc sep cur lc' h
    unfold gtScan at h
    split at h
    · exact absurd h (by simp)
    · exact gtAssign_fields h
  | cons c cs ih =>
    intro lc sep cur lc' h
    unfold gtScan at h
    split at h
    · split at h
      · exact absurd h (by simp)
      · cases hga : gtAssign lc sep (String.mk cur.reverse) with
        | none => rw [hga] at h; exact absurd h (by simp)
        | some lc2 =>
          rw [hga] at h
          obtain ⟨e1, e2, e3, e4⟩ := ih lc2 c [] lc' h
          obtain ⟨f1, f2, f3, f4⟩ := gtAssign_fields hga
          exact ⟨e1.trans f1, e2.trans f2, e3.trans f3, e4.trans f4⟩
    · split at h
      · exact ih lc sep (c :: cur) lc' h
      · exact absurd h (by simp)

theorem gtScanLang_shape : ∀ (cs cur : List Char) (lc : LocaleChunks),
    cur.all isalnumc = true → gtScanLang cur cs = some lc →
    lc.isRoot = false ∧ lc.script = none ∧ lc.variants = [] ∧
    ∃ l, lc.language = some l ∧ l.data ≠ [] ∧ l.data.all isalnumc = true := by
  intro cs
  induction cs with
  | nil =>
    intro cur lc hcur h
    unfold gtScanLang at h
    split at h
    · exact absurd h (by simp)
    · rename_i hne
      obtain rfl : { emptyChunks with language := some (String.mk cur.reverse) } = lc := by
        simpa using h
      refine ⟨rfl, rfl, rfl, String.mk cur.reverse, rfl, by simpa using hne, by simpa using hcur⟩
  | cons c cs ih =>
    intro cur lc hcur h
    unfold gtScanLang at h
    split at h
    · split at h
      · exact absurd h (by simp)
      · rename_i hsep hne
        obtain ⟨e1, e2, e3, e4⟩ := gtScan_fields cs _ c [] lc h
        exact ⟨e1, e2, e3, String.mk cur.reverse, e4, by simpa using hne, by simpa using hcur⟩
    · split at h
      · rename_i hsep halnum
        exact ih (c :: cur) lc (by simp [halnum, hcur]) h
      · exact absurd h (by simp)

theorem gettext_parse_shape {x : String} {lc : LocaleChunks}
    (h : GettextLocaleIDToLocaleChunks x = some lc) :
    lc.isRoot = false ∧ lc.script = none ∧ lc.variants = [] ∧
    ∃ l, lc.language = some l ∧ l.data ≠ [] ∧ l.data.all isalnumc = true :=
  gtScanLang_shape x.data [] lc (by simp) h

theorem uniGrammar_none_of_region {toks : List UChunk} {r : Bool} {l s : Option String}
    {rest1 : List UChunk} (h1 : uniHead toks = some (r, l, s, rest1))
    (h2 : uniRegion rest1 = none) : uniGrammar toks = none := by
  unfold uniGrammar
  rw [h1]
  show (match uniRegion rest1 with
    | none => none
    | some (terr, rest2) =>
      match uniVariants rest2 with
      | none => none
      | some vars =>
        some ({ isRoot := r, language := l, territory := terr, codeset := none, modifier := none, script := s, variants := vars } : LocaleChunks)) = none
  rw [h2]

/-! ### The claims -/

/-- C1: every string accepted by `UnicodeLocaleIDToLocaleChunks` yields a
record on which `LocaleChunksToUnicodeLocaleID` is defined; re-parsing that
`_`-joined output succeeds, reproduces the same record, and serializing the
re-parsed record yields the same string again. -/
theorem unicode_roundtrip_stable (x : String) (lc : LocaleChunks)
    (h : UnicodeLocaleIDToLocaleChunks x = some lc) :
    ∃ y, LocaleChunksToUnicodeLocaleID lc = some y ∧
      UnicodeLocaleIDToLocaleChunks y = some lc ∧
      (UnicodeLocaleIDToLocaleChunks y).bind LocaleChunksToUnicodeLocaleID = some y := by
  have hg := unicode_parse_good h
  refine ⟨joinS (uniContents lc), uniSerialize_eq lc hg.modifier_none hg.head_present,
    unicode_reparse lc hg, ?_⟩
  rw [unicode_reparse lc hg]
  show LocaleChunksToUnicodeLocaleID lc = _
  exact uniSerialize_eq lc hg.modifier_none hg.head_present

/-- Witness for C1 at the concrete accepted input "it-Latn-IT". -/
theorem unicode_roundtrip_stable_witness :
    ∃ y, LocaleChunksToUnicodeLocaleID { emptyChunks with language := some "it", territory := some "IT", script := some "Latn" } = some y ∧
      UnicodeLocaleIDToLocaleChunks y = some { emptyChunks with language := some "it", territory := some "IT", script := some "Latn" } ∧
      (UnicodeLocaleIDToLocaleChunks y).bind LocaleChunksToUnicodeLocaleID = some y :=
  unicode_roundtrip_stable "it-Latn-IT"
    { emptyChunks with language := some "it", territory := some "IT", script := some "Latn" }
    (by rfl)

/-- C2: counter-evidence for the variant-shape claim.  The C variant
`switch` has no default case, so a remaining token whose length is outside
4-8 is accepted unchecked: "it-IT-ab" parses with the length-2 variant "ab"
and "it-abcdefghi" parses with a length-9 variant, although the in-source
comment documents variants as alphanum{5,8} or digit+alphanum{3}.  The
shapes the switch does check behave as claimed: a 4-letter all-alphabetic
token in variant position fails the parse. -/
theorem unicode_variant_gap :
    UnicodeLocaleIDToLocaleChunks "it-IT-ab" =
      some { emptyChunks with language := some "it", territory := some "IT", variants := ["ab"] } ∧
    UnicodeLocaleIDToLocaleChunks "it-abcdefghi" =
      some { emptyChunks with language := some "it", variants := ["abcdefghi"] } ∧
    UnicodeLocaleIDToLocaleChunks "it-1abc" =
      some { emptyChunks with language := some "it", variants := ["1abc"] } ∧
    UnicodeLocaleIDToLocaleChunks "it-Latn-abcd" = none := by
  exact ⟨by rfl, by rfl, by rfl, by rfl⟩

/-- C3: a 3-character token in region position is consumed as territory only
when positions 0 and 1 hold digits and the digit check at position 3 — one
past the token's end, reading the separator or NUL terminator that ended the
chunk — also passes; that character is never a digit, so the whole parse
fails on any length-3 token in region position. -/
theorem unicode_region3_oob (locale : String) (toks : List UChunk) (r : Bool)
    (l s : Option String) (t0 : UChunk) (rest : List UChunk)
    (htok : uniTokenize locale.data = some toks)
    (hhead : uniHead toks = some (r, l, s, t0 :: rest))
    (hlen : tokLen t0 = 3) :
    (uniRegion (t0 :: rest) =
      if isdigitc (tokAt t0 0) = true ∧ isdigitc (tokAt t0 1) = true ∧
          isdigitc (tokAt t0 3) = true
      then some (some (tokStr t0), rest) else none) ∧
    isdigitc (tokAt t0 3) = false ∧
    UnicodeLocaleIDToLocaleChunks locale = none := by
  have ht0 : t0 ∈ toks := (uniHead_inv hhead).1 t0 (List.mem_cons_self _ _)
  have hfol := (uniScan_sound locale.data [] toks (by simp) htok t0 ht0).2.2
  have h3ge : ¬ (3 : Nat) < t0.1.length := by
    have h3 : t0.1.length = 3 := hlen
    omega
  have hd3 : isdigitc (tokAt t0 3) = false := by
    rw [tokAt_ge t0 3 h3ge]
    exact sep_not_digit hfol
  have hndig : ¬(isdigitc (tokAt t0 0) = true ∧ isdigitc (tokAt t0 1) = true ∧
      isdigitc (tokAt t0 3) = true) := by
    intro hc
    rw [hd3] at hc
    exact absurd hc.2.2 (by simp)
  refine ⟨?_, hd3, ?_⟩
  · rw [if_neg hndig]
    exact uniRegion_cons_three_bad t0 rest (by simp [hlen]) hlen hndig
  · rw [unicode_parse_eq, htok]
    show uniGrammar toks = none
    exact uniGrammar_none_of_region hhead
      (uniRegion_cons_three_bad t0 rest (by simp [hlen]) hlen hndig)

/-- Witness for C3 at the concrete input "it-123". -/
theorem unicode_region3_oob_witness :
    (uniRegion [(("123".data, Char.ofNat 0) : UChunk)] =
      if isdigitc (tokAt (("123".data, Char.ofNat 0) : UChunk) 0) = true ∧
          isdigitc (tokAt (("123".data, Char.ofNat 0) : UChunk) 1) = true ∧
          isdigitc (tokAt (("123".data, Char.ofNat 0) : UChunk) 3) = true
      then some (some (tokStr (("123".data, Char.ofNat 0) : UChunk)), []) else none) ∧
    isdigitc (tokAt (("123".data, Char.ofNat 0) : UChunk) 3) = false ∧
    UnicodeLocaleIDToLocaleChunks "it-123" = none :=
  unicode_region3_oob "it-123" [("it".data, '-'), ("123".data, Char.ofNat 0)] false
    (some "it") none ("123".data, Char.ofNat 0) [] (by rfl) (by rfl) (by rfl)

/-- C4: the crosswalk lookups scan the table in source order and return the
first case-insensitive match, and return absent for absent or empty input:
`latin` maps to `Latn` and back; for the duplicated name `georgian` the
forward lookup returns `Geok` (the first matching row), while the reverse
lookups of `Geok` and `Geor` both return `georgian`. -/
theorem crosswalk_first_match :
    GettextModifierToUnicodeScript (some "latin") = some "Latn" ∧
    UnicodeScriptToGettextModifier (some "Latn") = some "latin" ∧
    GettextModifierToUnicodeScript (some "georgian") = some "Geok" ∧
    UnicodeScriptToGettextModifier (some "Geok") = some "georgian" ∧
    UnicodeScriptToGettextModifier (some "Geor") = some "georgian" ∧
    GettextModifierToUnicodeScript none = none ∧
    UnicodeScriptToGettextModifier none = none ∧
    GettextModifierToUnicodeScript (some "") = none ∧
    UnicodeScriptToGettextModifier (some "") = none := by
  exact ⟨by rfl, by rfl, by rfl, by rfl, by rfl, rfl, rfl, by rfl, by rfl⟩

/-- C5: the Gettext parser enforces separator order and uniqueness — a `_`
chunk is rejected exactly when a territory, codeset or modifier is already
present, a `.` chunk exactly when a codeset or modifier is already present,
and an `@` chunk exactly when a modifier is already present; "it.utf8_IT"
fails, while "it_IT" parses to language "it" and territory "IT". -/
theorem gettext_separator_order :
    (∀ lc ch, gtAssign lc '_' ch = none ↔
      (lc.territory.isSome || lc.codeset.isSome || lc.modifier.isSome) = true) ∧
    (∀ lc ch, gtAssign lc '.' ch = none ↔
      (lc.codeset.isSome || lc.modifier.isSome) = true) ∧
    (∀ lc ch, gtAssign lc '@' ch = none ↔ lc.modifier.isSome = true) ∧
    GettextLocaleIDToLocaleChunks "it.utf8_IT" = none ∧
    GettextLocaleIDToLocaleChunks "it_IT" =
      some { emptyChunks with language := some "it", territory := some "IT" } := by
  refine ⟨?_, ?_, ?_, by rfl, by rfl⟩
  · intro lc ch
    by_cases hc : (lc.territory.isSome || lc.codeset.isSome || lc.modifier.isSome) = true <;>
      simp [gtAssign, hc]
  · intro lc ch
    by_cases hc : (lc.codeset.isSome || lc.modifier.isSome) = true <;>
      simp [gtAssign, hc]
  · intro lc ch
    by_cases hc : lc.modifier.isSome = true <;>
      simp [gtAssign, hc]

/-- C6: the Gettext serializer fails exactly when `language` is absent;
`isRoot` and `variants` never influence the output; the `@` chunk is the
modifier, else the crosswalk translation of the script, else omitted; the
record parsed from "it-Latn-IT" serializes to "it_IT@latin", and an unknown
script such as "Qaaa" leaves the `@` segment out entirely. -/
theorem gettext_serializer_spec :
    (∀ lc, LocaleChunksToGettextLocaleID lc = none ↔ lc.language = none) ∧
    (∀ lc b vs, LocaleChunksToGettextLocaleID { lc with isRoot := b, variants := vs } =
      LocaleChunksToGettextLocaleID lc) ∧
    (UnicodeLocaleIDToLocaleChunks "it-Latn-IT").bind LocaleChunksToGettextLocaleID =
      some "it_IT@latin" ∧
    LocaleChunksToGettextLocaleID { emptyChunks with language := some "it", script := some "Qaaa" } = some "it" := by
  refine ⟨?_, ?_, by rfl, by rfl⟩
  · intro lc
    cases hl : lc.language with
    | none => simp [LocaleChunksToGettextLocaleID, hl]
    | some lang => simp [LocaleChunksToGettextLocaleID, hl]
  · intro lc b vs
    rfl

/-- C7: `isRoot` is set only when the first chunk is the case-sensitive
literal "root" of length 4; "root-IT" parses to a root record with territory
"IT"; "root-Latn" fails, because after the root the 4-letter chunk fits
neither the region nor a variant shape; "ROOT" does not match the root rule
and is instead consumed as a script. -/
theorem unicode_root_rule :
    (∀ x lc, UnicodeLocaleIDToLocaleChunks x = some lc → lc.isRoot = true →
      ∃ f rest, uniTokenize x.data = some ((("root".data, f) : UChunk) :: rest)) ∧
    UnicodeLocaleIDToLocaleChunks "root-IT" =
      some { emptyChunks with isRoot := true, territory := some "IT" } ∧
    UnicodeLocaleIDToLocaleChunks "root-Latn" = none ∧
    UnicodeLocaleIDToLocaleChunks "ROOT" = some { emptyChunks with script := some "ROOT" } := by
  refine ⟨?_, by rfl, by rfl, by rfl⟩
  intro x lc h hroot
  obtain ⟨toks, htok, hg⟩ := unicode_parse_inv h
  obtain ⟨r, l, s, rest1, terr, rest2, vars, hhead, -, -, rfl⟩ := uniGrammar_inv hg
  obtain ⟨-, hrootinv, -⟩ := uniHead_inv hhead
  have hr : r = true := hroot
  obtain ⟨-, -, f, heq⟩ := hrootinv hr
  exact ⟨f, rest1, by rw [htok, heq]⟩

/-- Witness for C7's universal part at the concrete input "root-IT". -/
theorem unicode_root_rule_witness :
    ∃ f rest, uniTokenize ("root-IT" : String).data =
      some ((("root".data, f) : UChunk) :: rest) :=
  unicode_root_rule.1 "root-IT"
    { emptyChunks with isRoot := true, territory := some "IT" } (by rfl) rfl

/-- C8 counterexample: the Gettext parser accepts "abcd" and stores the
4-letter token as the language, refuting the claim that the language of any
successfully parsed record is a 2-3 letter code. -/
theorem gettext_language_len_counterexample :
    GettextLocaleIDToLocaleChunks "abcd" = some { emptyChunks with language := some "abcd" } ∧
    ("abcd" : String).length = 4 := ⟨by rfl, by rfl⟩

/-- C8 (amended): a record produced by a successful Unicode parse has, when
present, a 2-3 letter language; a record produced by a successful Gettext
parse always has a language, constrained only to be nonempty and
alphanumeric. -/
theorem parse_language_shape :
    (∀ x lc, UnicodeLocaleIDToLocaleChunks x = some lc → ∀ l, lc.language = some l →
      (l.length = 2 ∨ l.length = 3) ∧ l.data.all isalphac = true) ∧
    (∀ x lc, GettextLocaleIDToLocaleChunks x = some lc →
      ∃ l, lc.language = some l ∧ l.data ≠ [] ∧ l.data.all isalnumc = true) := by
  constructor
  · intro x lc h l hl
    exact (unicode_parse_good h).lang_shape l hl
  · intro x lc h
    exact (gettext_parse_shape h).2.2.2

/-- Witness for C8's amended statement at the concrete input "it". -/
theorem parse_language_shape_witness :
    ((("it" : String).length = 2 ∨ ("it" : String).length = 3) ∧
      ("it" : String).data.all isalphac = true) ∧
    ∃ l, ({ emptyChunks with language := some "it" } : LocaleChunks).language = some l ∧
      l.data ≠ [] ∧ l.data.all isalnumc = true :=
  ⟨parse_language_shape.1 "it" { emptyChunks with language := some "it" } (by rfl) "it" rfl,
   parse_language_shape.2 "it" { emptyChunks with language := some "it" } (by rfl)⟩

/-- C9: records from a successful Gettext parse never set `isRoot` and never
contain a script or variants; records from a successful Unicode parse never
contain a codeset or a modifier. -/
theorem parser_field_origins :
    (∀ x lc, GettextLocaleIDToLocaleChunks x = some lc →
      lc.isRoot = false ∧ lc.script = none ∧ lc.variants = []) ∧
    (∀ x lc, UnicodeLocaleIDToLocaleChunks x = some lc →
      lc.codeset = none ∧ lc.modifier = none) := by
  constructor
  · intro x lc h
    obtain ⟨h1, h2, h3, -⟩ := gettext_parse_shape h
    exact ⟨h1, h2, h3⟩
  · intro x lc h
    exact ⟨(unicode_parse_good h).codeset_none, (unicode_parse_good h).modifier_none⟩

/-- Witness for C9 at the concrete input "it" for both parsers. -/
theorem parser_field_origins_witness :
    (({ emptyChunks with language := some "it" } : LocaleChunks).isRoot = false ∧
      ({ emptyChunks with language := some "it" } : LocaleChunks).script = none ∧
      ({ emptyChunks with language := some "it" } : LocaleChunks).variants = []) ∧
    (({ emptyChunks with language := some "it" } : LocaleChunks).codeset = none ∧
      ({ emptyChunks with language := some "it" } : LocaleChunks).modifier = none) :=
  ⟨parser_field_origins.1 "it" { emptyChunks with language := some "it" } (by rfl),
   parser_field_origins.2 "it" { emptyChunks with language := some "it" } (by rfl)⟩

/-- C10: a length-2 token in region position that is not entirely alphabetic
makes the whole Unicode parse fail; the token is not reconsidered under the
variant rules. -/
theorem unicode_region2_strict (locale : String) (toks : List UChunk) (r : Bool)
    (l s : Option String) (t0 : UChunk) (rest : List UChunk)
    (htok : uniTokenize locale.data = some toks)
    (hhead : uniHead toks = some (r, l, s, t0 :: rest))
    (hlen : tokLen t0 = 2)
    (halpha : ¬(isalphac (tokAt t0 0) = true ∧ isalphac (tokAt t0 1) = true)) :
    UnicodeLocaleIDToLocaleChunks locale = none := by
  rw [unicode_parse_eq, htok]
  show uniGrammar toks = none
  exact uniGrammar_none_of_region hhead (uniRegion_cons_two_bad t0 rest hlen halpha)

/-- Witness for C10 at the concrete input "it-a1". -/
theorem unicode_region2_strict_witness :
    UnicodeLocaleIDToLocaleChunks "it-a1" = none :=
  unicode_region2_strict "it-a1" [("it".data, '-'), ("a1".data, Char.ofNat 0)] false
    (some "it") none ("a1".data, Char.ofNat 0) [] (by rfl) (by rfl) (by rfl) (by decide)
